import Mathlib

/-!
Verification of the pompom conditional-styling resolver
(packages/react/index.ts) against its natural-language specification.

The TypeScript source is shallowly embedded below:
* JavaScript runtime values that can appear in a style object are modelled
  by the inductive type `JSVal` (strings, numbers, null, undefined, plain
  objects); JavaScript objects are modelled as association lists in key
  insertion order, which is the iteration order of a for-in loop over the
  string-keyed objects used by the library.
* object property assignment (`o[k] = v`) is `setEntry`, property lookup is
  `getEntry`.
* the module-level `conditionIdMap` registry is threaded explicitly as a
  value of type `IdMap`; `defineConfig` consumes the current registry state
  and returns the updated one.
* `console.warn` diagnostics are modelled by the parallel traversal
  `styleWarnings`, which collects the (key, received value) pair of every
  condition key whose value fails the object check, in emission order.
-/

namespace Pompom

/-- JavaScript values that can occur in a style node or a computed style map:
strings, numbers (integral, which covers every value the library's spec
scenarios use), `null`, `undefined`, and plain objects in key insertion
order. -/
inductive JSVal where
  | str : String → JSVal
  | num : Int → JSVal
  | null : JSVal
  | undef : JSVal
  | obj : List (String × JSVal) → JSVal
  deriving Repr

/-- JavaScript string interpolation of a value, as performed by the template
literals in `getPropertyValue`. -/
def jsToString : JSVal → String
  | .str s => s
  | .num n => toString n
  | .null => "null"
  | .undef => "undefined"
  | .obj _ => "[object Object]"

/-- JavaScript truthiness of a value, as tested by `off || 'revert-layer'`. -/
def jsTruthy : JSVal → Bool
  | .str s => if s = "" then false else true
  | .num n => if n = 0 then false else true
  | .null => false
  | .undef => false
  | .obj _ => true

/-- The test `typeof value === 'object' && value !== null` from
`processStyles` (note that `typeof null` is `'object'` in JavaScript, hence
the explicit null check in the source; `JSVal.null` is rejected here). -/
def isObject : JSVal → Bool
  | .obj _ => true
  | _ => false

/-- Lookup in a JavaScript object / Map modelled as an association list. -/
def getEntry {α : Type} : List (String × α) → String → Option α
  | [], _ => none
  | p :: rest, k => if p.1 = k then some p.2 else getEntry rest k

/-- Assignment `o[k] = v` on a JavaScript object (or `Map.set`): an existing
key keeps its position and gets the new value, a new key is appended. -/
def setEntry {α : Type} : List (String × α) → String → α → List (String × α)
  | [], k, v => [(k, v)]
  | p :: rest, k, v => if p.1 = k then (k, v) :: rest else p :: setEntry rest k v

/-- Sequential assignment of a list of entries, as done by the
`for (const k in returnVal) pStyles[k] = returnVal[k]` loop. -/
def setEntries {α : Type} (acc : List (String × α)) : List (String × α) → List (String × α)
  | [] => acc
  | p :: rest => setEntries (setEntry acc p.1 p.2) rest

/-- Source `getPropertyValue(varId, on, off)`: builds the two-branch CSS
variable fallback string
`var(--<varId>-1,<on>) var(--<varId>-0,<off || 'revert-layer'>)`.
The optional `off` argument is `pStyles[k]`, which is `undefined` (`none`)
when the parent map has no entry; the JavaScript `||` falls back to
`revert-layer` for every falsy `off`, not only for `undefined`. The `onV`
parameter models the source's `on` parameter (a Lean keyword). -/
def getPropertyValue (varId : String) (onV : JSVal) (off : Option JSVal) : String :=
  let offStr :=
    match off with
    | some w => if jsTruthy w then jsToString w else "revert-layer"
    | none => "revert-layer"
  "var(--" ++ varId ++ "-1," ++ jsToString onV ++ ") var(--" ++ varId ++ "-0," ++ offStr ++ ")"

/-- JavaScript `selector.replace('&', '*')` on the character list: only the
first occurrence of `&` is replaced (string-pattern `String.prototype.replace`
replaces a single occurrence). -/
def replaceAmpChars : List Char → List Char
  | [] => []
  | c :: cs => if c = '&' then '*' :: cs else c :: replaceAmpChars cs

/-- `selector.replace('&', '*')` on strings. -/
def replaceAmp (s : String) : String := String.mk (replaceAmpChars s.data)

/-- JavaScript `value.startsWith('@')`. -/
def beginsWithAt (s : String) : Bool :=
  match s.data with
  | [] => false
  | c :: _ => c = '@'

/-- Source `getSelectorStylesheet(selector, id)`: the default rule sets
`--<id>-0` to `initial` and `--<id>-1` to empty on every element, and the
override rule, scoped to the selector with `&` replaced by `*`, flips both. -/
def getSelectorStylesheet (selector : String) (id : String) : String :=
  "*\x7b--" ++ id ++ "-0:initial;--" ++ id ++ "-1: ;\x7d " ++ replaceAmp selector ++
    "\x7b--" ++ id ++ "-0: ;--" ++ id ++ "-1:initial;\x7d"

/-- Source `getBlockStylesheet(block, id)`: same default rule, with the
override nested inside the raw block text (media/supports/container query). -/
def getBlockStylesheet (block : String) (id : String) : String :=
  "*\x7b--" ++ id ++ "-0:initial;--" ++ id ++ "-1: ;\x7d " ++ block ++
    "\x7b*\x7b--" ++ id ++ "-0: ;--" ++ id ++ "-1:initial;\x7d\x7d"

/-- State of the module-level `conditionIdMap: Map<string, string>`. -/
abbrev IdMap := List (String × String)

/-- The registered shorthand property functions (`options.properties`). -/
abbrev PropFns := List (String × (JSVal → List (String × JSVal)))

/-- Source `conditionIdMap.get(key)` followed by the truthiness test
`if (id)`: an absent entry and an empty-string id both take the
plain-property branch. -/
def condId (m : IdMap) (k : String) : Option String :=
  match getEntry m k with
  | some id => if id = "" then none else some id
  | none => none

/-- The `ConfigOptions` argument of `defineConfig`. The field `cssVarPfx`
models `options.cssVariablePrefix`; `none` models an absent property. -/
structure ConfigOptions where
  conditions : List (String × String)
  properties : PropFns
  cssVarPfx : Option String

/-- Source `options.cssVariablePrefix || 'p'` (an empty string is falsy and
also falls back to the default). -/
def effectivePfx (o : ConfigOptions) : String :=
  match o.cssVarPfx with
  | some s => if s = "" then "p" else s
  | none => "p"

/-- Result of one run of the registration loop in `defineConfig`:
the stylesheet fragments pushed (in order), the `(name, id)` pairs passed to
`conditionIdMap.set` by `getId` (in call order), the final value of the
local counter `idx`, and the resulting registry state. -/
structure RegResult where
  fragments : List String
  regs : List (String × String)
  idxEnd : Nat
  idMap : IdMap

/-- The `for (const name in conditions)` loop of `defineConfig`: falsy
(empty) values are skipped; otherwise `getId` increments the local counter
`idx`, forms `id = cssVarPrefix + idx`, records the mapping in the shared
registry, and the matching stylesheet fragment is pushed, dispatching on
`value.startsWith('@')`. -/
def registerConds (pfx : String) : List (String × String) → Nat → IdMap → RegResult
  | [], idx, m => ⟨[], [], idx, m⟩
  | (name, value) :: rest, idx, m =>
    if value = "" then registerConds pfx rest idx m
    else
      let id := pfx ++ Nat.repr (idx + 1)
      let r := registerConds pfx rest (idx + 1) (setEntry m name id)
      ⟨(if beginsWithAt value then getBlockStylesheet value id
         else getSelectorStylesheet value id) :: r.fragments,
       (name, id) :: r.regs, r.idxEnd, r.idMap⟩

/-- JavaScript `array.join('\n')`. -/
def joinNL : List String → String
  | [] => ""
  | [s] => s
  | s :: rest => s ++ "\n" ++ joinNL rest

/-- Observable result of a `defineConfig` call: the joined `stylesheet`
string, the registrations it performed, and the registry state afterwards
(the returned `style` closure is modelled by the function `style` below,
applied to the registry state current at call time and to
`options.properties`). -/
structure DefineResult where
  stylesheet : String
  regs : List (String × String)
  idMap : IdMap

/-- Source `defineConfig(options)`, taking the current state of the
module-level `conditionIdMap` and returning the new one. The id counter
`idx` is a `let` local of `defineConfig` and therefore starts at 0 on every
call. -/
def defineConfig (o : ConfigOptions) (m0 : IdMap) : DefineResult :=
  let r := registerConds (effectivePfx o) o.conditions 0 m0
  ⟨joinNL r.fragments, r.regs, r.idMap⟩

/-- First phase of `processStyles`: the for-in loop over the node, with the
condition branch deferring work (modelled by skipping; the deferred worklist
is recovered in `condPass` below by re-walking the same key list). A plain
key is either expanded through its registered property function or assigned
literally. -/
def basePassFrom (m : IdMap) (props : PropFns) (acc : List (String × JSVal)) :
    List (String × JSVal) → List (String × JSVal)
  | [] => acc
  | (k, v) :: rest =>
    match condId m k with
    | some _ => basePassFrom m props acc rest
    | none =>
      match getEntry props k with
      | some f => basePassFrom m props (setEntries acc (f v)) rest
      | none => basePassFrom m props (setEntry acc k v) rest

/-- The `conditionsToProcess.forEach` body: for every property of the
recursively processed child map, rewrite the parent entry to
`getPropertyValue(id, childValue, previousParentValue)`. -/
def rewriteWith (id : String) (acc : List (String × JSVal)) :
    List (String × JSVal) → List (String × JSVal)
  | [] => acc
  | (k, v) :: rest =>
    rewriteWith id (setEntry acc k (.str (getPropertyValue id v (getEntry acc k)))) rest

mutual
/-- Source `processStyles(_styles)`: the base pass establishes the
condition-inactive values, then the deferred conditions are processed in key
order. A non-object argument never reaches the recursive call in the source
(the object check guards it); the for-in loop of the source produces no
property entries for the non-object primitives used by the library, so those
return the empty map. -/
def processStyles (m : IdMap) (props : PropFns) : JSVal → List (String × JSVal)
  | .obj kvs => condPass m props (basePassFrom m props [] kvs) kvs
  | _ => []

/-- The deferred-condition pass of `processStyles`: re-walks the node's key
list in order; condition keys with object values are recursively resolved
and folded into the accumulator with `rewriteWith`; condition keys with
non-object values were only warned about (see `styleWarnings`) and are
dropped; plain keys were already handled by the base pass. -/
def condPass (m : IdMap) (props : PropFns) (acc : List (String × JSVal)) :
    List (String × JSVal) → List (String × JSVal)
  | [] => acc
  | (k, v) :: rest =>
    match condId m k with
    | some id =>
      if isObject v then
        condPass m props (rewriteWith id acc (processStyles m props v)) rest
      else condPass m props acc rest
    | none => condPass m props acc rest
end

/-- The `(key, value)` pairs reported by the `console.warn`/`console.log`
branch for the node's own keys, in loop order: condition keys whose value
fails the object check. -/
def nodeWarns (m : IdMap) : List (String × JSVal) → List (String × JSVal)
  | [] => []
  | (k, v) :: rest =>
    match condId m k with
    | some _ => if isObject v then nodeWarns m rest else (k, v) :: nodeWarns m rest
    | none => nodeWarns m rest

mutual
/-- All diagnostics surfaced to the logging channel during one resolution,
in emission order: the node's own malformed-condition warnings are printed
during the first loop, then each valid condition's recursive resolution
prints its own. Property lookups never warn, so this traversal does not
consult the property functions. -/
def styleWarnings (m : IdMap) : JSVal → List (String × JSVal)
  | .obj kvs => nodeWarns m kvs ++ childWarns m kvs
  | _ => []

/-- Warnings produced by the recursive calls of the deferred-condition
pass, in processing order. -/
def childWarns (m : IdMap) : List (String × JSVal) → List (String × JSVal)
  | [] => []
  | (k, v) :: rest =>
    match condId m k with
    | some _ =>
      if isObject v then styleWarnings m v ++ childWarns m rest
      else childWarns m rest
    | none => childWarns m rest
end

/-- The `style` function returned by `defineConfig`, applied to the registry
state current at resolution time (the source closure reads the live
module-level `conditionIdMap`) and to the configuration's `properties`. -/
def style (m : IdMap) (props : PropFns) (node : JSVal) : List (String × JSVal) :=
  processStyles m props node

/-- Pairwise distinctness of the keys of an association list. -/
def keysDistinct {α : Type} (m : List (String × α)) : Prop :=
  m.Pairwise (fun p q => p.1 ≠ q.1)

/-- Models the spec scenario expander `p: (v) => ({ padding: v*4 + "px" })`
on the numeric tokens the scenario uses (a non-numeric argument yields the
JavaScript NaN rendering). -/
def pExpander : JSVal → List (String × JSVal)
  | .num n => [("padding", .str (toString (n * 4) ++ "px"))]
  | _ => [("padding", .str "NaNpx")]

/-- The configuration of the end-to-end scenario: one hover condition and
one shorthand property, default variable name settings. -/
def c1Options : ConfigOptions := ⟨[("hover", "&:hover")], [("p", pExpander)], none⟩

/-- Two sibling conditions registered in key order condA, condB. -/
def c2Options : ConfigOptions := ⟨[("condA", "&.a"), ("condB", "&.b")], [], none⟩

/-- First configuration of the two-call scenario. -/
def c3OptionsA : ConfigOptions := ⟨[("condA", "&:hover")], [], none⟩

/-- Second, independent configuration in the same process. -/
def c3OptionsB : ConfigOptions := ⟨[("condB", "&:focus")], [], none⟩

/-- First configuration of the re-registration scenario. -/
def c10OptionsA : ConfigOptions := ⟨[("hover", "&:hover"), ("dark", ".dark &")], [], none⟩

/-- Second configuration: re-registers hover under a distinct prefix so the
overwrite is observable. -/
def c10OptionsB : ConfigOptions := ⟨[("hover", "&:h")], [], some "q"⟩

/-! Association-map lemmas. -/

theorem getEntry_setEntry_self {α : Type} (m : List (String × α)) (k : String) (v : α) :
    getEntry (setEntry m k v) k = some v := by
  induction m with
  | nil => simp [setEntry, getEntry]
  | cons p rest ih =>
    by_cases h : p.1 = k
    · simp [setEntry, getEntry, h]
    · simp [setEntry, getEntry, h, ih]

theorem getEntry_setEntry_ne {α : Type} (m : List (String × α)) (k k2 : String) (v : α)
    (h : k ≠ k2) : getEntry (setEntry m k v) k2 = getEntry m k2 := by
  induction m with
  | nil => simp [setEntry, getEntry, h]
  | cons p rest ih =>
    by_cases hp : p.1 = k
    · have hpk2 : ¬(p.1 = k2) := by rw [hp]; exact h
      simp [setEntry, getEntry, hp, h, hpk2]
    · by_cases hp2 : p.1 = k2
      · have hk2k : ¬(k2 = k) := fun he => h he.symm
        simp [setEntry, getEntry, hp, hp2, hk2k]
      · simp [setEntry, getEntry, hp, hp2, ih]

theorem mem_setEntry {α : Type} (m : List (String × α)) (k : String) (v : α)
    (q : String × α) (hq : q ∈ setEntry m k v) : q.1 = k ∨ q ∈ m := by
  induction m with
  | nil =>
    simp only [setEntry, List.mem_singleton] at hq
    exact Or.inl (by rw [hq])
  | cons p rest ih =>
    by_cases hp : p.1 = k
    · simp only [setEntry, if_pos hp, List.mem_cons] at hq
      rcases hq with hq | hq
      · exact Or.inl (by rw [hq])
      · exact Or.inr (List.mem_cons_of_mem p hq)
    · simp only [setEntry, if_neg hp, List.mem_cons] at hq
      rcases hq with hq | hq
      · exact Or.inr (by rw [hq]; exact List.mem_cons_self p rest)
      · rcases ih hq with h1 | h1
        · exact Or.inl h1
        · exact Or.inr (List.mem_cons_of_mem p h1)

theorem keysDistinct_setEntry {α : Type} (m : List (String × α)) (k : String) (v : α)
    (h : keysDistinct m) : keysDistinct (setEntry m k v) := by
  induction m with
  | nil => simp [setEntry, keysDistinct]
  | cons p rest ih =>
    rcases List.pairwise_cons.1 h with ⟨hhead, htail⟩
    by_cases hp : p.1 = k
    · rw [keysDistinct, setEntry, if_pos hp]
      refine List.pairwise_cons.2 ⟨?_, htail⟩
      intro q hq
      exact hp ▸ hhead q hq
    · rw [keysDistinct, setEntry, if_neg hp]
      refine List.pairwise_cons.2 ⟨?_, ih htail⟩
      intro q hq
      rcases mem_setEntry rest k v q hq with h1 | h1
      · rw [h1]; exact hp
      · exact hhead q h1

theorem setEntry_append_of_fresh {α : Type} (m : List (String × α)) (k : String) (v : α)
    (h : ∀ q ∈ m, q.1 ≠ k) : setEntry m k v = m ++ [(k, v)] := by
  induction m with
  | nil => simp [setEntry]
  | cons p rest ih =>
    rw [setEntry, if_neg (h p (List.mem_cons_self p rest)), List.cons_append,
      ih (fun q hq => h q (List.mem_cons_of_mem p hq))]

theorem setEntries_eq_append {α : Type} :
    ∀ (l acc : List (String × α)), (∀ p ∈ l, ∀ q ∈ acc, q.1 ≠ p.1) →
      keysDistinct l → setEntries acc l = acc ++ l := by
  intro l
  induction l with
  | nil => intro acc _ _; simp [setEntries]
  | cons p rest ih =>
    intro acc hdisj hnd
    rcases List.pairwise_cons.1 hnd with ⟨hhead, htail⟩
    rw [setEntries, setEntry_append_of_fresh acc p.1 p.2
      (fun q hq => hdisj p (List.mem_cons_self p rest) q hq), ih (acc ++ [(p.1, p.2)]) ?_ htail,
      List.append_assoc]
    · rfl
    · intro r hr q hq
      rcases List.mem_append.1 hq with hq1 | hq1
      · exact hdisj r (List.mem_cons_of_mem p hr) q hq1
      · rw [List.mem_singleton.1 hq1]
        exact hhead r hr

/-! String lemmas. -/

theorem strAppend_eq_empty_iff (s t : String) : s ++ t = "" ↔ s = "" ∧ t = "" := by
  constructor
  · intro h
    have hd : s.data ++ t.data = [] := by
      have := congrArg String.data h
      rwa [String.data_append] at this
    rcases List.append_eq_nil.1 hd with ⟨h1, h2⟩
    exact ⟨String.ext_iff.2 h1, String.ext_iff.2 h2⟩
  · rintro ⟨rfl, rfl⟩; rfl

theorem strAppend_left_cancel {s a b : String} (h : s ++ a = s ++ b) : a = b := by
  have hd := String.ext_iff.1 h
  rw [String.data_append, String.data_append] at hd
  exact String.ext_iff.2 (List.append_cancel_left hd)

/-! Injectivity of the decimal representation `Nat.repr`, needed to reason
about the generated variable ids `cssVarPrefix + idx`. -/

theorem toDigitsCore_eq_digits :
    ∀ (f n : Nat) (l : List Char), n ≠ 0 → n < f →
      Nat.toDigitsCore 10 f n l = ((Nat.digits 10 n).map Nat.digitChar).reverse ++ l := by
  intro f
  induction f with
  | zero => intro n l _ hf; omega
  | succ f ih =>
    intro n l h0 hf
    rw [Nat.toDigitsCore]
    by_cases hdiv : n / 10 = 0
    · have hn10 : n < 10 := by omega
      have : Nat.digits 10 n = [n % 10] := by
        rw [Nat.digits_def' (by norm_num) (Nat.pos_of_ne_zero h0), hdiv]
        simp
      simp [hdiv, this]
    · simp only [hdiv, if_false]
      rw [ih (n / 10) (Nat.digitChar (n % 10) :: l) hdiv (by omega)]
      rw [Nat.digits_def' (by norm_num) (Nat.pos_of_ne_zero h0)]
      simp

theorem natRepr_eq_digits (n : Nat) (h : n ≠ 0) :
    Nat.repr n = (((Nat.digits 10 n).map Nat.digitChar).reverse).asString := by
  rw [Nat.repr, Nat.toDigits, toDigitsCore_eq_digits (n + 1) n [] h (by omega)]
  simp

theorem digitChar_inj : ∀ a : Nat, a < 10 → ∀ b : Nat, b < 10 →
    Nat.digitChar a = Nat.digitChar b → a = b := by decide

theorem mapDigitChar_inj :
    ∀ (l1 l2 : List Nat), (∀ x ∈ l1, x < 10) → (∀ x ∈ l2, x < 10) →
      l1.map Nat.digitChar = l2.map Nat.digitChar → l1 = l2 := by
  intro l1
  induction l1 with
  | nil => intro l2 _ _ h; cases l2 <;> simp_all
  | cons a rest ih =>
    intro l2 h1 h2 h
    cases l2 with
    | nil => simp at h
    | cons b rest2 =>
      simp only [List.map_cons, List.cons.injEq] at h
      have ha := digitChar_inj a (h1 a (by simp)) b (h2 b (by simp)) h.1
      rw [ha, ih rest2 (fun x hx => h1 x (by simp [hx])) (fun x hx => h2 x (by simp [hx])) h.2]

theorem natRepr_injective : ∀ a b : Nat, Nat.repr a = Nat.repr b → a = b := by
  have hzero : ∀ b : Nat, b ≠ 0 → Nat.repr 0 = Nat.repr b → False := by
    intro b hb h
    rw [natRepr_eq_digits b hb] at h
    have hd : (['0'] : List Char) = ((Nat.digits 10 b).map Nat.digitChar).reverse := by
      have := String.ext_iff.1 h
      simpa [Nat.repr, Nat.toDigits, Nat.toDigitsCore, List.asString] using this
    have hd2 : (Nat.digits 10 b).map Nat.digitChar = ['0'] := by
      have := congrArg List.reverse hd
      simpa using this.symm
    have : Nat.digits 10 b = [0] := by
      cases hdig : Nat.digits 10 b with
      | nil => rw [hdig] at hd2; simp at hd2
      | cons d rest =>
        rw [hdig] at hd2
        cases rest with
        | nil =>
          simp only [List.map_cons, List.map_nil, List.cons.injEq, and_true] at hd2
          have hdlt : d < 10 :=
            Nat.digits_lt_base (by norm_num) (by rw [hdig]; simp)
          have : d = 0 := digitChar_inj d hdlt 0 (by norm_num) hd2
          rw [this]
        | cons e rest2 => simp at hd2
    have hofd := Nat.ofDigits_digits 10 b
    rw [this] at hofd
    simp [Nat.ofDigits] at hofd
    exact hb hofd.symm
  intro a b h
  by_cases ha : a = 0
  · subst ha
    by_cases hb : b = 0
    · exact hb.symm
    · exact absurd h (fun hh => hzero b hb hh)
  · by_cases hb : b = 0
    · subst hb
      exact absurd h.symm (fun hh => hzero a ha hh)
    · rw [natRepr_eq_digits a ha, natRepr_eq_digits b hb] at h
      have hd : ((Nat.digits 10 a).map Nat.digitChar).reverse =
          ((Nat.digits 10 b).map Nat.digitChar).reverse := by
        have := String.ext_iff.1 h
        simpa [List.asString] using this
      have hm := List.reverse_injective hd
      have hdig := mapDigitChar_inj (Nat.digits 10 a) (Nat.digits 10 b)
        (fun x hx => Nat.digits_lt_base (by norm_num) hx)
        (fun x hx => Nat.digits_lt_base (by norm_num) hx) hm
      have h1 := Nat.ofDigits_digits 10 a
      have h2 := Nat.ofDigits_digits 10 b
      rw [hdig] at h1
      rw [h2] at h1
      exact h1.symm

theorem pfxRepr_inj (pfx : String) (a b : Nat) (h : pfx ++ Nat.repr a = pfx ++ Nat.repr b) :
    a = b :=
  natRepr_injective a b (strAppend_left_cancel h)

/-! Lemmas about the condition rewrite step. -/

theorem rewriteWith_getEntry_fresh (id : String) :
    ∀ (child acc : List (String × JSVal)) (x : String), (∀ q ∈ child, q.1 ≠ x) →
      getEntry (rewriteWith id acc child) x = getEntry acc x := by
  intro child
  induction child with
  | nil => intro acc x _; rfl
  | cons p rest ih =>
    intro acc x h
    obtain ⟨k, v⟩ := p
    rw [rewriteWith, ih _ x (fun q hq => h q (List.mem_cons_of_mem _ hq)),
      getEntry_setEntry_ne _ k x _ (h (k, v) (List.mem_cons_self _ _))]

theorem rewriteWith_getEntry (id : String) :
    ∀ (child acc : List (String × JSVal)) (k : String) (v : JSVal),
      keysDistinct child → getEntry child k = some v →
      getEntry (rewriteWith id acc child) k =
        some (.str (getPropertyValue id v (getEntry acc k))) := by
  intro child
  induction child with
  | nil => intro acc k v _ h; simp [getEntry] at h
  | cons p rest ih =>
    intro acc k v hnd hget
    obtain ⟨k0, v0⟩ := p
    rcases List.pairwise_cons.1 hnd with ⟨hhead, htail⟩
    by_cases hk : k0 = k
    · subst hk
      have hv : v = v0 := by
        rw [getEntry, if_pos rfl] at hget
        exact (Option.some.inj hget).symm
      subst hv
      rw [rewriteWith, rewriteWith_getEntry_fresh id rest _ k0
        (fun q hq => (hhead q hq).symm), getEntry_setEntry_self]
    · rw [getEntry, if_neg hk] at hget
      rw [rewriteWith, ih _ k v htail hget, getEntry_setEntry_ne _ k0 k _ hk]

theorem keysDistinct_setEntries {α : Type} :
    ∀ (l acc : List (String × α)), keysDistinct acc → keysDistinct (setEntries acc l) := by
  intro l
  induction l with
  | nil => intro acc h; exact h
  | cons p rest ih => intro acc h; exact ih _ (keysDistinct_setEntry _ _ _ h)

theorem keysDistinct_basePassFrom (m : IdMap) (props : PropFns) :
    ∀ (kvs acc : List (String × JSVal)), keysDistinct acc →
      keysDistinct (basePassFrom m props acc kvs) := by
  intro kvs
  induction kvs with
  | nil => intro acc h; exact h
  | cons p rest ih =>
    intro acc h
    obtain ⟨k, v⟩ := p
    rcases hc : condId m k with _ | id
    · rcases hp : getEntry props k with _ | f
      · rw [basePassFrom, hc, hp]
        exact ih _ (keysDistinct_setEntry _ _ _ h)
      · rw [basePassFrom, hc, hp]
        exact ih _ (keysDistinct_setEntries _ _ h)
    · rw [basePassFrom, hc]
      exact ih _ h

theorem keysDistinct_rewriteWith (id : String) :
    ∀ (child acc : List (String × JSVal)), keysDistinct acc →
      keysDistinct (rewriteWith id acc child) := by
  intro child
  induction child with
  | nil => intro acc h; exact h
  | cons p rest ih =>
    intro acc h
    obtain ⟨k, v⟩ := p
    rw [rewriteWith]
    exact ih _ (keysDistinct_setEntry _ _ _ h)

theorem keysDistinct_processStyles (m : IdMap) (props : PropFns) :
    ∀ v : JSVal, keysDistinct (processStyles m props v) := by
  refine processStyles.induct m props
    (fun v => keysDistinct (processStyles m props v))
    (fun acc l => keysDistinct acc → keysDistinct (condPass m props acc l))
    ?_ ?_ ?_ ?_ ?_ ?_
  · intro kvs hcp
    rw [processStyles]
    exact hcp (keysDistinct_basePassFrom m props kvs [] (List.Pairwise.nil))
  · intro t ht
    cases t with
    | obj kvs => exact absurd rfl (ht kvs)
    | str s => exact List.Pairwise.nil
    | num n => exact List.Pairwise.nil
    | null => exact List.Pairwise.nil
    | undef => exact List.Pairwise.nil
  · intro acc h
    rw [condPass]
    exact h
  · intro acc k v rest id hc hobj hchild hrest h
    rw [condPass, hc]
    simp only [hobj, if_true]
    exact hrest (keysDistinct_rewriteWith id _ _ h)
  · intro acc k v rest id hc hobj hrest h
    rw [condPass, hc]
    simp only [hobj, if_false]
    exact hrest h
  · intro acc k v rest hc hrest h
    rw [condPass, hc]
    exact hrest h

/-! Lemmas about the registration loop. -/

theorem regs_shape (pfx : String) :
    ∀ (conds : List (String × String)) (idx : Nat) (m : IdMap) (p : String × String),
      p ∈ (registerConds pfx conds idx m).regs → ∃ j, idx < j ∧ p.2 = pfx ++ Nat.repr j := by
  intro conds
  induction conds with
  | nil => intro idx m p hp; simp [registerConds] at hp
  | cons c rest ih =>
    intro idx m p hp
    obtain ⟨name, value⟩ := c
    by_cases hv : value = ""
    · rw [registerConds, if_pos hv] at hp
      exact ih idx m p hp
    · rw [registerConds, if_neg hv] at hp
      rcases List.mem_cons.1 hp with hp1 | hp1
      · exact ⟨idx + 1, by omega, by rw [hp1]⟩
      · rcases ih (idx + 1) _ p hp1 with ⟨j, hj, he⟩
        exact ⟨j, by omega, he⟩

theorem regs_ids_nodup (pfx : String) :
    ∀ (conds : List (String × String)) (idx : Nat) (m : IdMap),
      ((registerConds pfx conds idx m).regs.map Prod.snd).Nodup := by
  intro conds
  induction conds with
  | nil => intro idx m; simp [registerConds]
  | cons c rest ih =>
    intro idx m
    obtain ⟨name, value⟩ := c
    by_cases hv : value = ""
    · rw [registerConds, if_pos hv]
      exact ih idx m
    · rw [registerConds, if_neg hv]
      refine List.nodup_cons.2 ⟨?_, ih (idx + 1) _⟩
      intro hmem
      rcases List.mem_map.1 hmem with ⟨p, hp, hpe⟩
      rcases regs_shape pfx rest (idx + 1) _ p hp with ⟨j, hj, he⟩
      rw [he] at hpe
      have := pfxRepr_inj pfx j (idx + 1) hpe
      omega

theorem regs_independent_of_map (pfx : String) :
    ∀ (conds : List (String × String)) (idx : Nat) (m1 m2 : IdMap),
      (registerConds pfx conds idx m1).regs = (registerConds pfx conds idx m2).regs := by
  intro conds
  induction conds with
  | nil => intro idx m1 m2; rfl
  | cons c rest ih =>
    intro idx m1 m2
    obtain ⟨name, value⟩ := c
    by_cases hv : value = ""
    · rw [registerConds, if_pos hv, registerConds, if_pos hv]
      exact ih idx m1 m2
    · rw [registerConds, if_neg hv, registerConds, if_neg hv]
      exact congrArg (List.cons _) (ih (idx + 1) _ _)

theorem isSome_getEntry_setEntry {α : Type} (m : List (String × α)) (k name : String) (v : α)
    (h : (getEntry m k).isSome) : (getEntry (setEntry m name v) k).isSome := by
  by_cases hn : name = k
  · subst hn; rw [getEntry_setEntry_self]; rfl
  · rwa [getEntry_setEntry_ne _ _ _ _ hn]

theorem registerConds_preserves (pfx : String) :
    ∀ (conds : List (String × String)) (idx : Nat) (m : IdMap) (k : String),
      (getEntry m k).isSome → (getEntry (registerConds pfx conds idx m).idMap k).isSome := by
  intro conds
  induction conds with
  | nil => intro idx m k h; exact h
  | cons c rest ih =>
    intro idx m k h
    obtain ⟨name, value⟩ := c
    by_cases hv : value = ""
    · rw [registerConds, if_pos hv]
      exact ih idx m k h
    · rw [registerConds, if_neg hv]
      exact ih (idx + 1) _ k (isSome_getEntry_setEntry m k name _ h)

/-! Lemmas for dropping a malformed condition key. -/

theorem basePassFrom_skip (m : IdMap) (props : PropFns) (k : String) (v : JSVal) (id : String)
    (hk : condId m k = some id) :
    ∀ (l1 l2 acc : List (String × JSVal)),
      basePassFrom m props acc (l1 ++ (k, v) :: l2) = basePassFrom m props acc (l1 ++ l2) := by
  intro l1
  induction l1 with
  | nil => intro l2 acc; rw [List.nil_append, List.nil_append, basePassFrom, hk]
  | cons p rest ih =>
    intro l2 acc
    obtain ⟨k1, v1⟩ := p
    rcases hc : condId m k1 with _ | id1
    · rcases hp : getEntry props k1 with _ | f
      · rw [List.cons_append, basePassFrom, hc, hp, List.cons_append, basePassFrom, hc, hp]
        exact ih l2 (setEntry acc k1 v1)
      · rw [List.cons_append, basePassFrom, hc, hp, List.cons_append, basePassFrom, hc, hp]
        exact ih l2 (setEntries acc (f v1))
    · rw [List.cons_append, basePassFrom, hc, List.cons_append, basePassFrom, hc]
      exact ih l2 acc

theorem condPass_skip (m : IdMap) (props : PropFns) (k : String) (v : JSVal) (id : String)
    (hk : condId m k = some id) (hv : isObject v = false) :
    ∀ (l1 l2 acc : List (String × JSVal)),
      condPass m props acc (l1 ++ (k, v) :: l2) = condPass m props acc (l1 ++ l2) := by
  intro l1
  induction l1 with
  | nil =>
    intro l2 acc
    rw [List.nil_append, List.nil_append, condPass, hk]
    simp only [hv]
    rfl
  | cons p rest ih =>
    intro l2 acc
    obtain ⟨k1, v1⟩ := p
    rcases hc : condId m k1 with _ | id1
    · rw [List.cons_append, condPass, hc, List.cons_append, condPass, hc]
      exact ih l2 acc
    · by_cases ho : isObject v1
      · rw [List.cons_append, condPass, hc, List.cons_append, condPass, hc]
        simp only [ho]
        exact ih l2 (rewriteWith id1 acc (processStyles m props v1))
      · rw [List.cons_append, condPass, hc, List.cons_append, condPass, hc]
        simp only [ho]
        exact ih l2 acc

theorem nodeWarns_mem (m : IdMap) (k : String) (v : JSVal) (id : String)
    (hk : condId m k = some id) (hv : isObject v = false) :
    ∀ (l1 l2 : List (String × JSVal)), (k, v) ∈ nodeWarns m (l1 ++ (k, v) :: l2) := by
  intro l1
  induction l1 with
  | nil =>
    intro l2
    rw [List.nil_append, nodeWarns, hk]
    simp only [hv]
    exact List.mem_cons_self _ _
  | cons p rest ih =>
    intro l2
    obtain ⟨k1, v1⟩ := p
    rcases hc : condId m k1 with _ | id1
    · rw [List.cons_append, nodeWarns, hc]
      exact ih l2
    · by_cases ho : isObject v1
      · rw [List.cons_append, nodeWarns, hc]
        simp only [ho]
        exact ih l2
      · rw [List.cons_append, nodeWarns, hc]
        simp only [ho]
        exact List.mem_cons_of_mem _ (ih l2)

/-! Congruence of resolution in the property functions: only keys whose
registry lookup fails are ever looked up in `properties`. -/

theorem basePassFrom_props_congr (m : IdMap) (props1 props2 : PropFns)
    (hagree : ∀ k, condId m k = none → getEntry props1 k = getEntry props2 k) :
    ∀ (kvs acc : List (String × JSVal)),
      basePassFrom m props1 acc kvs = basePassFrom m props2 acc kvs := by
  intro kvs
  induction kvs with
  | nil => intro acc; rfl
  | cons p rest ih =>
    intro acc
    obtain ⟨k, v⟩ := p
    rcases hc : condId m k with _ | id
    · have hpp := hagree k hc
      rcases hp : getEntry props1 k with _ | f
      · rw [hp] at hpp
        rw [basePassFrom, hc, hp, basePassFrom, hc, ← hpp]
        exact ih (setEntry acc k v)
      · rw [hp] at hpp
        rw [basePassFrom, hc, hp, basePassFrom, hc, ← hpp]
        exact ih (setEntries acc (f v))
    · rw [basePassFrom, hc, basePassFrom, hc]
      exact ih acc

theorem processStyles_props_congr (m : IdMap) (props1 props2 : PropFns)
    (hagree : ∀ k, condId m k = none → getEntry props1 k = getEntry props2 k) :
    ∀ v : JSVal, processStyles m props1 v = processStyles m props2 v := by
  refine processStyles.induct m props1
    (fun v => processStyles m props1 v = processStyles m props2 v)
    (fun acc l => condPass m props1 acc l = condPass m props2 acc l)
    ?_ ?_ ?_ ?_ ?_ ?_
  · intro kvs hcp
    rw [processStyles, processStyles, ← basePassFrom_props_congr m props1 props2 hagree kvs []]
    exact hcp
  · intro t ht
    cases t with
    | obj kvs => exact absurd rfl (ht kvs)
    | str s => rfl
    | num n => rfl
    | null => rfl
    | undef => rfl
  · intro acc
    rfl
  · intro acc k v rest id hc hobj hM1 hM2
    rw [condPass, hc, condPass, hc]
    simp only [hobj]
    rw [← hM1]
    exact hM2
  · intro acc k v rest id hc hobj hM2
    rw [condPass, hc, condPass, hc]
    simp only [hobj]
    exact hM2
  · intro acc k v rest hc hM2
    rw [condPass, hc, condPass, hc]
    exact hM2

/-! Decomposition of a node consisting of plain keys followed by a single
condition key. -/

theorem basePassFrom_append_cond (m : IdMap) (props : PropFns) (ck : String) (cv : JSVal)
    (id : String) (hk : condId m ck = some id) :
    ∀ (pkvs acc : List (String × JSVal)),
      basePassFrom m props acc (pkvs ++ [(ck, cv)]) = basePassFrom m props acc pkvs := by
  intro pkvs
  induction pkvs with
  | nil =>
    intro acc
    rw [List.nil_append]
    conv_lhs => rw [basePassFrom]
    rw [hk]
  | cons p rest ih =>
    intro acc
    obtain ⟨k1, v1⟩ := p
    rcases hc : condId m k1 with _ | id1
    · rcases hp : getEntry props k1 with _ | f
      · rw [List.cons_append, basePassFrom, hc, hp, basePassFrom, hc, hp]
        exact ih (setEntry acc k1 v1)
      · rw [List.cons_append, basePassFrom, hc, hp, basePassFrom, hc, hp]
        exact ih (setEntries acc (f v1))
    · rw [List.cons_append, basePassFrom, hc, basePassFrom, hc]
      exact ih acc

theorem condPass_plain_pre (m : IdMap) (props : PropFns) :
    ∀ (pkvs : List (String × JSVal)), (∀ p ∈ pkvs, condId m p.1 = none) →
      ∀ (acc l2 : List (String × JSVal)),
        condPass m props acc (pkvs ++ l2) = condPass m props acc l2 := by
  intro pkvs
  induction pkvs with
  | nil => intro _ acc l2; rfl
  | cons p rest ih =>
    intro hplain acc l2
    obtain ⟨k1, v1⟩ := p
    have hc : condId m k1 = none := hplain (k1, v1) (List.mem_cons_self _ _)
    rw [List.cons_append, condPass, hc]
    exact ih (fun q hq => hplain q (List.mem_cons_of_mem _ hq)) acc l2

/-! The claims. -/

/-- C1: with conditions mapping hover to the selector text and the shorthand
property p expanding a spacing token to a padding value, resolving
the node with p set to 2 and a hover override of p set to 4 produces a map
whose padding entry is the two-branch fallback referencing the hover
condition variable pair, with 16px as the active branch and 8px as the
inactive branch. -/
theorem c1_end_to_end :
    style (defineConfig c1Options []).idMap c1Options.properties
        (.obj [("p", .num 2), ("hover", .obj [("p", .num 4)])]) =
      [("padding", .str "var(--p1-1,16px) var(--p1-0,8px)")] := rfl

/-- C2: last-processed-wins. With condA and condB both registered (in that
key order), resolving a node that sets color at the base level and inside
both conditions nests the fallback chains so that condB, processed second,
wraps the condA chain as its own inactive branch: the outermost chain
references the condB variable pair with the condB value as active branch,
so condB wins whenever both conditions are simultaneously active. -/
theorem c2_last_processed_wins (base x y : String) (hbase : base ≠ "") :
    style (defineConfig c2Options []).idMap [] (.obj
      [("color", .str base), ("condA", .obj [("color", .str x)]),
       ("condB", .obj [("color", .str y)])]) =
    [("color", .str ("var(--p2-1," ++ y ++ ") var(--p2-0," ++
      ("var(--p1-1," ++ x ++ ") var(--p1-0," ++ base ++ ")") ++ ")"))] := by
  have hm : (defineConfig c2Options []).idMap = [("condA", "p1"), ("condB", "p2")] := rfl
  rw [style, hm]
  simp [processStyles, condPass, basePassFrom, rewriteWith, getPropertyValue, condId,
    getEntry, setEntry, jsToString, jsTruthy, isObject, setEntries,
    strAppend_eq_empty_iff, hbase, String.append_assoc]

/-- C2 witness at concrete branch values. -/
theorem c2_witness :
    style (defineConfig c2Options []).idMap [] (.obj
      [("color", .str "base"), ("condA", .obj [("color", .str "x")]),
       ("condB", .obj [("color", .str "y")])]) =
    [("color", .str ("var(--p2-1," ++ "y" ++ ") var(--p2-0," ++
      ("var(--p1-1," ++ "x" ++ ") var(--p1-0," ++ "base" ++ ")") ++ ")"))] :=
  c2_last_processed_wins "base" "x" "y" (by decide)

/-- C3 counterexample: the id counter is a local of each defineConfig call,
so a second configuration restarts numbering instead of continuing one
shared sequence: the distinct registrations condA (first call) and condB
(second call) both receive the variable id p1, and the second call's
registration log confirms it reissued p1. -/
theorem c3_counterexample :
    getEntry (defineConfig c3OptionsB (defineConfig c3OptionsA []).idMap).idMap "condA"
        = some "p1" ∧
    getEntry (defineConfig c3OptionsB (defineConfig c3OptionsA []).idMap).idMap "condB"
        = some "p1" ∧
    (defineConfig c3OptionsB (defineConfig c3OptionsA []).idMap).regs = [("condB", "p1")] :=
  ⟨rfl, rfl, rfl⟩

/-- C3 amended: variable ids are unique within a single defineConfig call
(the ids issued by one registration loop are pairwise distinct), but the id
sequence is per-call, not process-wide: the registrations performed by a
call are independent of the registry state left by earlier calls, so a
second configuration restarts numbering rather than continuing. -/
theorem c3_ids_unique_within_call (o : ConfigOptions) (m : IdMap) :
    ((defineConfig o m).regs.map Prod.snd).Nodup ∧
    (defineConfig o m).regs = (defineConfig o []).regs :=
  ⟨regs_ids_nodup (effectivePfx o) o.conditions 0 m,
   regs_independent_of_map (effectivePfx o) o.conditions 0 m []⟩

/-- C4 counterexample: the parent has a prior base-pass value for opacity
(the number 0), yet the rewritten entry substitutes the reset token
revert-layer instead of that prior value, because the JavaScript fallback
`off || 'revert-layer'` treats every falsy prior value like a missing one.
This refutes the claim that revert-layer is substituted exactly when the
parent had no prior value. -/
theorem c4_counterexample :
    basePassFrom [("hover", "p1")] [] []
        [("opacity", .num 0), ("hover", .obj [("opacity", .num 1)])] =
      [("opacity", .num 0)] ∧
    style [("hover", "p1")] []
        (.obj [("opacity", .num 0), ("hover", .obj [("opacity", .num 1)])]) =
      [("opacity", .str "var(--p1-1,1) var(--p1-0,revert-layer)")] :=
  ⟨rfl, rfl⟩

/-- C4 amended: for a condition key whose nested node resolves to a child
map, every property of the child map is rewritten in the parent to a
fallback whose active branch is the child value and whose inactive branch is
the parent's pre-existing base-pass value; the reset token revert-layer is
substituted when the parent had no prior value for the property or when that
prior value is JavaScript-falsy (empty string, zero, null, undefined). -/
theorem c4_condition_rewrite (m : IdMap) (props : PropFns) (id : String) :
    (∀ (pkvs ckvs : List (String × JSVal)) (ck : String),
      condId m ck = some id → (∀ p ∈ pkvs, condId m p.1 = none) →
      processStyles m props (.obj (pkvs ++ [(ck, .obj ckvs)])) =
        rewriteWith id (basePassFrom m props [] pkvs)
          (processStyles m props (.obj ckvs))) ∧
    (∀ (child acc : List (String × JSVal)) (k : String) (v : JSVal),
      keysDistinct child → getEntry child k = some v →
      getEntry (rewriteWith id acc child) k =
        some (.str (getPropertyValue id v (getEntry acc k)))) ∧
    (∀ (w off : JSVal), jsTruthy off = true →
      getPropertyValue id w (some off) =
        "var(--" ++ id ++ "-1," ++ jsToString w ++ ") var(--" ++ id ++ "-0," ++
          jsToString off ++ ")") ∧
    (∀ (w : JSVal) (off : Option JSVal),
      (off = none ∨ ∃ u, off = some u ∧ jsTruthy u = false) →
      getPropertyValue id w off =
        "var(--" ++ id ++ "-1," ++ jsToString w ++ ") var(--" ++ id ++ "-0,revert-layer)") := by
  refine ⟨?_, ?_, ?_, ?_⟩
  · intro pkvs ckvs ck hck hplain
    rw [processStyles, basePassFrom_append_cond m props ck (.obj ckvs) id hck pkvs,
      condPass_plain_pre m props pkvs hplain _ [(ck, .obj ckvs)]]
    conv_lhs => rw [condPass]
    rw [hck]
    rfl
  · intro child acc k v hnd hget
    exact rewriteWith_getEntry id child acc k v hnd hget
  · intro w off htr
    rw [getPropertyValue, htr]
    simp [String.append_assoc]
  · intro w off hoff
    rcases hoff with rfl | ⟨u, rfl, hu⟩
    · rw [getPropertyValue]
      simp [String.append_assoc]
    · rw [getPropertyValue, hu]
      simp [String.append_assoc]

/-- C4 witness: the four parts applied at concrete inputs, with a truthy and
a falsy prior value. -/
theorem c4_witness :
    processStyles [("hover", "p1")] []
        (.obj ([("color", .str "c")] ++ [("hover", .obj [("color", .str "d")])])) =
      rewriteWith "p1" (basePassFrom [("hover", "p1")] [] [] [("color", .str "c")])
        (processStyles [("hover", "p1")] [] (.obj [("color", .str "d")])) ∧
    getEntry (rewriteWith "p1" [("color", .str "c")] [("color", .str "d")]) "color" =
      some (.str (getPropertyValue "p1" (.str "d")
        (getEntry [("color", .str "c")] "color"))) ∧
    getPropertyValue "p1" (.str "d") (some (.str "c")) =
      "var(--" ++ "p1" ++ "-1," ++ jsToString (.str "d") ++ ") var(--" ++ "p1" ++ "-0," ++
        jsToString (.str "c") ++ ")" ∧
    getPropertyValue "p1" (.str "d") (some (.num 0)) =
      "var(--" ++ "p1" ++ "-1," ++ jsToString (.str "d") ++ ") var(--" ++ "p1" ++
        "-0,revert-layer)" :=
  ⟨(c4_condition_rewrite [("hover", "p1")] [] "p1").1 [("color", .str "c")]
      [("color", .str "d")] "hover" rfl
      (by intro p hp; rw [List.mem_singleton] at hp; subst hp; rfl),
   (c4_condition_rewrite [("hover", "p1")] [] "p1").2.1 [("color", .str "d")]
      [("color", .str "c")] "color" (.str "d") (by simp [keysDistinct]) rfl,
   (c4_condition_rewrite [("hover", "p1")] [] "p1").2.2.1 (.str "d") (.str "c") rfl,
   (c4_condition_rewrite [("hover", "p1")] [] "p1").2.2.2 (.str "d") (some (.num 0))
      (Or.inr ⟨.num 0, rfl, rfl⟩)⟩

/-- C5: a registered condition key whose value is not an object is dropped
from the resolution pass without raising (resolution is a total function):
the resolved map is the same as if the key were absent, and a diagnostic
carrying the key and the received value is surfaced on the logging
channel. -/
theorem c5_malformed_condition_dropped (m : IdMap) (props : PropFns)
    (l1 l2 : List (String × JSVal)) (k : String) (v : JSVal) (id : String)
    (hk : condId m k = some id) (hv : isObject v = false) :
    style m props (.obj (l1 ++ (k, v) :: l2)) = style m props (.obj (l1 ++ l2)) ∧
    (k, v) ∈ styleWarnings m (.obj (l1 ++ (k, v) :: l2)) := by
  constructor
  · rw [style, style, processStyles, processStyles,
      basePassFrom_skip m props k v id hk l1 l2 [],
      condPass_skip m props k v id hk hv l1 l2 _]
  · rw [styleWarnings]
    exact List.mem_append_left _ (nodeWarns_mem m k v id hk hv l1 l2)

/-- C5 witness at a concrete input: hover given the number 3. -/
theorem c5_witness :
    style [("hover", "p1")] [] (.obj ([("color", .str "red")] ++ ("hover", .num 3) :: [])) =
      style [("hover", "p1")] [] (.obj ([("color", .str "red")] ++ [])) ∧
    ("hover", .num 3) ∈ styleWarnings [("hover", "p1")]
      (.obj ([("color", .str "red")] ++ ("hover", .num 3) :: [])) :=
  c5_malformed_condition_dropped [("hover", "p1")] [] [("color", .str "red")] []
    "hover" (.num 3) "p1" rfl rfl

/-- C6: the stylesheet fragment emitted for a registered condition is the
two-rule pair: a global default rule setting the id-0 variable to the
keyword initial and the id-1 variable to an empty value, plus an override
rule flipping both; the override is nested inside the raw block text exactly
when the raw text begins with an at-sign, and otherwise is scoped to the raw
selector with the ampersand token replaced by the universal selector. -/
theorem c6_stylesheet_fragment (name raw : String) (h : raw ≠ "") :
    (defineConfig ⟨[(name, raw)], [], none⟩ []).stylesheet =
      (if beginsWithAt raw
       then "*\x7b--p1-0:initial;--p1-1: ;\x7d " ++ raw ++
         "\x7b*\x7b--p1-0: ;--p1-1:initial;\x7d\x7d"
       else "*\x7b--p1-0:initial;--p1-1: ;\x7d " ++ replaceAmp raw ++
         "\x7b--p1-0: ;--p1-1:initial;\x7d") ∧
    getEntry (defineConfig ⟨[(name, raw)], [], none⟩ []).idMap name = some "p1" := by
  have hreg : registerConds "p" [(name, raw)] 0 [] =
      ⟨[if beginsWithAt raw then getBlockStylesheet raw "p1"
        else getSelectorStylesheet raw "p1"], [(name, "p1")], 1, [(name, "p1")]⟩ := by
    rw [registerConds, if_neg h]
    rfl
  constructor
  · show joinNL (registerConds "p" [(name, raw)] 0 []).fragments = _
    rw [hreg]
    by_cases hb : beginsWithAt raw
    · rw [if_pos hb, if_pos hb]
      show getBlockStylesheet raw "p1" = _
      rw [getBlockStylesheet]
      simp [String.append_assoc]
    · rw [if_neg hb, if_neg hb]
      show getSelectorStylesheet raw "p1" = _
      rw [getSelectorStylesheet]
      simp [String.append_assoc]
  · show getEntry (registerConds "p" [(name, raw)] 0 []).idMap name = some "p1"
    rw [hreg]
    show getEntry [(name, "p1")] name = some "p1"
    rw [getEntry, if_pos rfl]

/-- C6 witness: one block condition and one selector condition, with the
resulting stylesheet text fully evaluated. -/
theorem c6_witness :
    (defineConfig ⟨[("md", "@media (min-width: 768px)")], [], none⟩ []).stylesheet =
      "*\x7b--p1-0:initial;--p1-1: ;\x7d @media (min-width: 768px)\x7b*\x7b--p1-0: ;--p1-1:initial;\x7d\x7d" ∧
    (defineConfig ⟨[("hover", "&:hover")], [], none⟩ []).stylesheet =
      "*\x7b--p1-0:initial;--p1-1: ;\x7d *:hover\x7b--p1-0: ;--p1-1:initial;\x7d" := by
  constructor
  · have h := (c6_stylesheet_fragment "md" "@media (min-width: 768px)" (by decide)).1
    rw [h]
    rfl
  · have h := (c6_stylesheet_fragment "hover" "&:hover" (by decide)).1
    rw [h]
    rfl

/-- C7: a key that is neither a registered condition nor a registered
shorthand property is passed through unchanged, and never triggers the
malformed-condition diagnostic, whatever its value is (condition-shaped
object values included). -/
theorem c7_passthrough (m : IdMap) (props : PropFns) (k : String) (v : JSVal)
    (hm : getEntry m k = none) (hp : getEntry props k = none) :
    style m props (.obj [(k, v)]) = [(k, v)] ∧ styleWarnings m (.obj [(k, v)]) = [] := by
  have hc : condId m k = none := by rw [condId, hm]
  have hbase : basePassFrom m props [] [(k, v)] = [(k, v)] := by
    conv_lhs => rw [basePassFrom]
    rw [hc, hp]
    rfl
  constructor
  · rw [style, processStyles, hbase]
    conv_lhs => rw [condPass]
    rw [hc]
    rfl
  · have h1 : nodeWarns m [(k, v)] = [] := by
      conv_lhs => rw [nodeWarns]
      rw [hc]
      rfl
    have h2 : childWarns m [(k, v)] = [] := by
      conv_lhs => rw [childWarns]
      rw [hc]
      rfl
    rw [styleWarnings, h1, h2]
    rfl

/-- C7 witness: an unregistered condition-shaped typo key holding an object
value, against the registry produced by the scenario configuration. -/
theorem c7_witness :
    style (defineConfig c1Options []).idMap c1Options.properties
        (.obj [("hovr", .obj [("color", .str "red")])]) =
      [("hovr", .obj [("color", .str "red")])] ∧
    styleWarnings (defineConfig c1Options []).idMap
        (.obj [("hovr", .obj [("color", .str "red")])]) = [] :=
  c7_passthrough (defineConfig c1Options []).idMap c1Options.properties
    "hovr" (.obj [("color", .str "red")]) rfl rfl

/-- C8: a key registered as a shorthand property (and not as a condition)
resolves to exactly the map returned by its expander function merged into
the empty working map: every property of the expander result appears,
nothing else is added, and no warning is emitted. -/
theorem c8_expansion (m : IdMap) (props : PropFns) (k : String) (v : JSVal)
    (f : JSVal → List (String × JSVal)) (hm : getEntry m k = none)
    (hp : getEntry props k = some f) (hnd : keysDistinct (f v)) :
    style m props (.obj [(k, v)]) = f v ∧ styleWarnings m (.obj [(k, v)]) = [] := by
  have hc : condId m k = none := by rw [condId, hm]
  have hbase : basePassFrom m props [] [(k, v)] = f v := by
    conv_lhs => rw [basePassFrom]
    rw [hc, hp]
    show setEntries [] (f v) = f v
    rw [setEntries_eq_append (f v) [] (fun p _ q hq => absurd hq (List.not_mem_nil q)) hnd]
    rfl
  constructor
  · rw [style, processStyles, hbase]
    conv_lhs => rw [condPass]
    rw [hc]
    rfl
  · have h1 : nodeWarns m [(k, v)] = [] := by
      conv_lhs => rw [nodeWarns]
      rw [hc]
      rfl
    have h2 : childWarns m [(k, v)] = [] := by
      conv_lhs => rw [childWarns]
      rw [hc]
      rfl
    rw [styleWarnings, h1, h2]
    rfl

/-- C8 witness: the scenario shorthand p applied to the token 3 expands to
its padding map. -/
theorem c8_witness :
    style (defineConfig c1Options []).idMap c1Options.properties (.obj [("p", .num 3)]) =
      pExpander (.num 3) ∧
    styleWarnings (defineConfig c1Options []).idMap (.obj [("p", .num 3)]) = [] :=
  c8_expansion (defineConfig c1Options []).idMap c1Options.properties "p" (.num 3)
    pExpander rfl rfl (by simp [keysDistinct, pExpander])

/-- C9: when a name is registered both as a condition and as a shorthand
property, the condition interpretation wins: resolution output is unchanged
by whatever expander is bound at that name (the expander is never invoked
for that key), and the key itself is processed as a condition when its value
is an object, or dropped with the malformed-condition diagnostic when it is
not. -/
theorem c9_condition_precedence (m : IdMap) (props : PropFns) (k id : String)
    (f : JSVal → List (String × JSVal)) (v : JSVal) (hk : condId m k = some id) :
    (∀ node, processStyles m (setEntry props k f) node = processStyles m props node) ∧
    (isObject v = false →
      style m props (.obj [(k, v)]) = [] ∧
      styleWarnings m (.obj [(k, v)]) = [(k, v)]) ∧
    (isObject v = true →
      style m props (.obj [(k, v)]) = rewriteWith id [] (processStyles m props v)) := by
  refine ⟨?_, ?_, ?_⟩
  · have hagree : ∀ k2, condId m k2 = none →
        getEntry (setEntry props k f) k2 = getEntry props k2 := by
      intro k2 hk2
      have hne : k ≠ k2 := by
        intro he
        rw [he, hk2] at hk
        exact Option.noConfusion hk
      exact getEntry_setEntry_ne props k k2 f hne
    exact processStyles_props_congr m (setEntry props k f) props hagree
  · intro hv
    have hbase : basePassFrom m props [] [(k, v)] = [] := by
      conv_lhs => rw [basePassFrom]
      rw [hk]
      rfl
    constructor
    · rw [style, processStyles, hbase]
      conv_lhs => rw [condPass]
      rw [hk]
      simp only [hv]
      rfl
    · have h1 : nodeWarns m [(k, v)] = [(k, v)] := by
        conv_lhs => rw [nodeWarns]
        rw [hk]
        simp only [hv]
        rfl
      have h2 : childWarns m [(k, v)] = [] := by
        conv_lhs => rw [childWarns]
        rw [hk]
        simp only [hv]
        rfl
      rw [styleWarnings, h1, h2]
      rfl
  · intro hv
    have hbase : basePassFrom m props [] [(k, v)] = [] := by
      conv_lhs => rw [basePassFrom]
      rw [hk]
      rfl
    rw [style, processStyles, hbase]
    conv_lhs => rw [condPass]
    rw [hk]
    simp only [hv]
    rfl

/-- C9 witness: hover registered as a condition shadows an expander bound
under the same name, and a non-object hover value is dropped with the
diagnostic. -/
theorem c9_witness :
    processStyles [("hover", "p1")] (setEntry [] "hover" pExpander)
        (.obj [("hover", .str "oops")]) =
      processStyles [("hover", "p1")] [] (.obj [("hover", .str "oops")]) ∧
    style [("hover", "p1")] [] (.obj [("hover", .str "oops")]) = [] ∧
    styleWarnings [("hover", "p1")] (.obj [("hover", .str "oops")]) =
      [("hover", .str "oops")] :=
  ⟨(c9_condition_precedence [("hover", "p1")] [] "hover" "p1" pExpander
      (.str "oops") rfl).1 (.obj [("hover", .str "oops")]),
   (c9_condition_precedence [("hover", "p1")] [] "hover" "p1" pExpander
      (.str "oops") rfl).2.1 rfl⟩

/-- C10: the condition registry is a shared, never-cleared singleton:
registration preserves every existing entry, names registered by a first
configuration are still recognized as conditions (and resolvable) after a
second defineConfig call, and re-registering a name silently overwrites its
id with the one issued by the later call. -/
theorem c10_registry_shared_singleton :
    (∀ (o : ConfigOptions) (m : IdMap) (k : String),
      (getEntry m k).isSome = true → (getEntry (defineConfig o m).idMap k).isSome = true) ∧
    getEntry (defineConfig c10OptionsB (defineConfig c10OptionsA []).idMap).idMap "dark"
      = some "p2" ∧
    getEntry (defineConfig c10OptionsB (defineConfig c10OptionsA []).idMap).idMap "hover"
      = some "q1" ∧
    style (defineConfig c10OptionsB (defineConfig c10OptionsA []).idMap).idMap []
        (.obj [("dark", .obj [("color", .str "x")])]) =
      [("color", .str "var(--p2-1,x) var(--p2-0,revert-layer)")] :=
  ⟨fun o m k h => registerConds_preserves (effectivePfx o) o.conditions 0 m k h,
   rfl, rfl, rfl⟩

/-- C10 witness for the preservation conjunct at a concrete registry. -/
theorem c10_witness :
    (getEntry (defineConfig c10OptionsA [("z", "w9")]).idMap "z").isSome = true :=
  c10_registry_shared_singleton.1 c10OptionsA [("z", "w9")] "z" rfl

end Pompom
